import Mathlib

/-!
# Verification of the term-dictionary hierarchy core of `app.py`

Shallow embedding of the controlled-vocabulary dictionary loader
(`carregar_dicionario_termos`), the specificity filter
(`aplicar_logica_hierarquia`) and the orchestrator's post-parse term
pipeline from `src/app.py`, together with proofs and refutations of the
specified properties.

Conventions of the embedding:
* Python's `dict` from parent to list of children is an association list
  `List (String × List String)` whose keys are distinct in every state the
  loader produces; insertion order is preserved, as in CPython.
* Python builds `mapa_inverso_hierarquia` by repeated assignment
  `inv[filho] = pai`, so a later assignment overwrites an earlier one; we
  model the inverse map as a function `String → Option String` built by a
  fold whose later updates shadow earlier ones.
* Python's `set` is modelled as `Finset String`.  `aplicar_logica_hierarquia`
  ends with `return list(termos_finais)`, a list of the set's elements in
  unspecified order; the embedding returns the `Finset` itself, and every
  property below compares results as sets, as the spec requires.
* The Python string primitives `strip`, `split`, `replace`, `startswith`
  and `lower` are embedded as structural functions on `String.data`, so
  that every definition evaluates inside the kernel.
* The file read wrapped in `try/except` is modelled by an
  `Option (List String)` argument: `none` is an unreadable source (the
  `except` branches), `some lines` the file's lines.  The `st.error` call in
  the `except` branches is modelled by the `erro` flag of the result.
-/

/-- Embeds Python `s.strip()`: remove leading and trailing whitespace. -/
def pyStrip (s : String) : String :=
  ⟨((s.data.dropWhile Char.isWhitespace).reverse.dropWhile
      Char.isWhitespace).reverse⟩

/-- Character-list core of Python `s.split(sep)` for a one-character
separator: split at every occurrence, keeping empty pieces. -/
def pySplitAux (sep : Char) : List Char → List (List Char)
  | [] => [[]]
  | c :: cs =>
    match pySplitAux sep cs with
    | [] => if c = sep then [[], []] else [[c]]
    | r :: rs => if c = sep then [] :: r :: rs else (c :: r) :: rs

/-- Embeds Python `s.split(sep)` for a one-character separator. -/
def pySplit (sep : Char) (s : String) : List String :=
  (pySplitAux sep s.data).map (fun l => ⟨l⟩)

/-- Embeds Python `s.replace('\t', '')`: remove every tab character. -/
def pyRemoveTabs (s : String) : String :=
  ⟨s.data.filter (fun c => ¬ c = '\t')⟩

/-- Embeds Python `s.startswith('#')`. -/
def pyStartsWithHash (s : String) : Bool :=
  match s.data with
  | c :: _ => c == '#'
  | [] => false

/-- Embeds Python `s.lower()` (ASCII case folding; the dictionary terms and
candidates exercised below are unchanged by the non-ASCII cases). -/
def pyLower (s : String) : String :=
  ⟨s.data.map Char.toLower⟩

/-- One step of the loop `mapa_hierarquia[pai].append(filho)` preceded by
`if pai not in mapa_hierarquia: mapa_hierarquia[pai] = []`
(app.py lines 38-40): append `filho` under key `pai`, creating the key at the
end if absent, as a Python dict does. -/
def mapaAppend (mapa : List (String × List String)) (pai filho : String) :
    List (String × List String) :=
  if mapa.any (fun e => e.1 == pai) then
    mapa.map (fun e => if e.1 = pai then (e.1, e.2 ++ [filho]) else e)
  else
    mapa ++ [(pai, [filho])]

/-- The body of the `for line in f` loop of `carregar_dicionario_termos`
(app.py lines 19-40): strip the line, skip blanks and `#` comments, split on
`>`, strip each part and drop empty parts, append the most-specific (last)
part to the term list, and when the chain has at least two levels record the
edge from the next-to-last part to the last part.  Tab characters are removed
from both endpoints.  (The Python guard `if termo_especifico:` always passes:
the parts are non-empty after the filter.) -/
def processaLinha (acc : List String × List (String × List String))
    (rawLine : String) : List String × List (String × List String) :=
  let line := pyStrip rawLine
  if line.data.isEmpty || pyStartsWithHash line then acc
  else
    let partes := ((pySplit '>' line).map pyStrip).filter
      (fun p => ¬ p.data.isEmpty)
    match partes.getLast? with
    | none => acc
    | some ultimo =>
      let termo_especifico := pyRemoveTabs ultimo
      let termos := acc.1 ++ [termo_especifico]
      if partes.length > 1 then
        let termo_pai := pyRemoveTabs (partes.getD (partes.length - 2) "")
        (termos, mapaAppend acc.2 termo_pai termo_especifico)
      else
        (termos, acc.2)

/-- Result of `carregar_dicionario_termos`: the term list, the
parent-to-children hierarchy map, and whether `st.error` was invoked. -/
structure Carregado where
  termos : List String
  mapa : List (String × List String)
  erro : Bool
  deriving DecidableEq, Repr

/-- `carregar_dicionario_termos` (app.py lines 8-49).  A `none` source is a
file that cannot be opened or read: the `except` branches report the
condition via `st.error` and return `([], {})`.  A readable source is
processed line by line by `processaLinha`. -/
def carregar_dicionario_termos (source : Option (List String)) : Carregado :=
  match source with
  | none => ⟨[], [], true⟩
  | some lines =>
    let r := lines.foldl processaLinha ([], [])
    ⟨r.1, r.2, false⟩

/-- The inverse hierarchy map built by `aplicar_logica_hierarquia`
(app.py lines 59-63): for each entry `(pai, filhos)` in order and each
`filho` in order, assign `inv[filho] = pai`; a later assignment overwrites an
earlier one. -/
def mapa_inverso_hierarquia (mapa : List (String × List String)) :
    String → Option String :=
  mapa.foldl
    (fun f e => e.2.foldl
      (fun g filho => fun t => if t = filho then some e.1 else g t) f)
    (fun _ => none)

/-- The loop filling `termos_a_remover` (app.py lines 65-70): for each
suggested term, if it has a recorded parent and that parent is among the
suggested terms, mark the parent for removal. -/
def termos_a_remover (termos_sugeridos : List String)
    (inv : String → Option String) (termos_finais : Finset String) :
    Finset String :=
  termos_sugeridos.foldl
    (fun acc termo =>
      match inv termo with
      | some termo_pai =>
        if termo_pai ∈ termos_finais then insert termo_pai acc else acc
      | none => acc)
    ∅

/-- `aplicar_logica_hierarquia` (app.py lines 52-74): keep the suggested
terms as a set, build the inverse map, remove every suggested term that is
the direct parent of some suggested term, and return the remaining set
(Python returns `list(termos_finais)` in unspecified order; every property
below compares results as sets). -/
def aplicar_logica_hierarquia (termos_sugeridos : List String)
    (mapa_hierarquia : List (String × List String)) : Finset String :=
  let termos_finais := termos_sugeridos.toFinset
  let inv := mapa_inverso_hierarquia mapa_hierarquia
  termos_finais \ termos_a_remover termos_sugeridos inv termos_finais

/-- The orchestrator's term pipeline after the oracle's reply has been parsed
(app.py lines 298-307): `gerar_termos_llm` returns the parsed JSON list of
candidate strings unchanged; the orchestrator optionally appends
`"Política Pública"` when the document matches the state-policy regex and the
term is not already present, then applies the hierarchy filter.  No
validation against the loaded vocabulary takes place anywhere on this path. -/
def montaTermosFinais (termos_sugeridos_brutos : List String)
    (matchPoliticaPublica : Bool)
    (mapa_hierarquia : List (String × List String)) : Finset String :=
  let brutos :=
    if matchPoliticaPublica ∧ "Política Pública" ∉ termos_sugeridos_brutos
    then termos_sugeridos_brutos ++ ["Política Pública"]
    else termos_sugeridos_brutos
  aplicar_logica_hierarquia brutos mapa_hierarquia

/-- `a` is a strict ancestor of `t` in the hierarchy whose parent lookup is
`inv`: there is a chain of one or more parent edges from `t` up to `a`. -/
inductive Ancestor (inv : String → Option String) : String → String → Prop
  | direct {p t : String} : inv t = some p → Ancestor inv p t
  | step {a p t : String} : inv t = some p → Ancestor inv a p →
      Ancestor inv a t

/-- Anything related by `Ancestor` has a recorded parent. -/
lemma Ancestor.inv_isSome {inv : String → Option String} {a b : String}
    (h : Ancestor inv a b) : ∃ p, inv b = some p := by
  cases h with
  | direct hp => exact ⟨_, hp⟩
  | step hp _ => exact ⟨_, hp⟩

/-- Membership in the fold that fills `termos_a_remover`, generalized over
the accumulator. -/
lemma mem_foldl_remover (inv : String → Option String) (F : Finset String) :
    ∀ (L : List String) (acc : Finset String) (p : String),
      p ∈ L.foldl
        (fun acc termo =>
          match inv termo with
          | some termo_pai =>
            if termo_pai ∈ F then insert termo_pai acc else acc
          | none => acc) acc ↔
      p ∈ acc ∨ ∃ t ∈ L, inv t = some p ∧ p ∈ F := by
  intro L
  induction L with
  | nil => simp
  | cons t L ih =>
    intro acc p
    simp only [List.foldl_cons]
    rw [ih]
    rcases h : inv t with _ | q
    · simp [h]
    · by_cases hq : q ∈ F
      · simp only [h, if_pos hq, Finset.mem_insert, List.mem_cons]
        constructor
        · rintro ((rfl | hacc) | ⟨u, hu, hup, hpF⟩)
          · exact Or.inr ⟨t, Or.inl rfl, h, hq⟩
          · exact Or.inl hacc
          · exact Or.inr ⟨u, Or.inr hu, hup, hpF⟩
        · rintro (hacc | ⟨u, (rfl | hu), hup, hpF⟩)
          · exact Or.inl (Or.inr hacc)
          · rw [h] at hup
            exact Or.inl (Or.inl (Option.some_injective _ hup).symm)
          · exact Or.inr ⟨u, hu, hup, hpF⟩
      · simp only [h, if_neg hq, List.mem_cons]
        constructor
        · rintro (hacc | ⟨u, hu, hup, hpF⟩)
          · exact Or.inl hacc
          · exact Or.inr ⟨u, Or.inr hu, hup, hpF⟩
        · rintro (hacc | ⟨u, (rfl | hu), hup, hpF⟩)
          · exact Or.inl hacc
          · rw [h] at hup
            cases Option.some_injective _ hup
            exact absurd hpF hq
          · exact Or.inr ⟨u, hu, hup, hpF⟩

/-- Membership in `termos_a_remover`: exactly the terms that are the direct
parent of some suggested term and are themselves in `termos_finais`. -/
lemma mem_termos_a_remover {L : List String} {inv : String → Option String}
    {F : Finset String} {p : String} :
    p ∈ termos_a_remover L inv F ↔
      (∃ t ∈ L, inv t = some p) ∧ p ∈ F := by
  unfold termos_a_remover
  rw [mem_foldl_remover]
  simp only [Finset.not_mem_empty, false_or]
  constructor
  · rintro ⟨t, ht, hp, hF⟩
    exact ⟨⟨t, ht, hp⟩, hF⟩
  · rintro ⟨⟨t, ht, hp⟩, hF⟩
    exact ⟨t, ht, hp, hF⟩

/-- Membership in the result of `aplicar_logica_hierarquia`: the suggested
terms that are not the direct parent of any suggested term. -/
lemma mem_aplicar {L : List String} {m : List (String × List String)}
    {x : String} :
    x ∈ aplicar_logica_hierarquia L m ↔
      x ∈ L ∧ ¬ ∃ t ∈ L, mapa_inverso_hierarquia m t = some x := by
  unfold aplicar_logica_hierarquia
  rw [Finset.mem_sdiff, mem_termos_a_remover, List.mem_toFinset]
  constructor
  · rintro ⟨hx, hno⟩
    exact ⟨hx, fun he => hno ⟨he, hx⟩⟩
  · rintro ⟨hx, hno⟩
    exact ⟨hx, fun he => hno he.1⟩

/-- C3 (confirmed): for the single hierarchy edge
`"Transporte" → "Transporte Ferroviário"` and the candidate set containing
both terms, the specificity filter returns exactly
`{"Transporte Ferroviário"}`: the direct parent of a present candidate is
removed. -/
theorem C3_pai_direto_removido :
    aplicar_logica_hierarquia ["Transporte", "Transporte Ferroviário"]
      [("Transporte", ["Transporte Ferroviário"])] =
      {"Transporte Ferroviário"} := by decide

/-- C8 (confirmed): when the dictionary source cannot be located or read,
`carregar_dicionario_termos` reports the condition (`st.error`, the `erro`
flag) and returns an empty term list and an empty hierarchy map instead of
propagating the exception. -/
theorem C8_fonte_indisponivel :
    carregar_dicionario_termos none =
      ⟨[], [], true⟩ := rfl

/-- C1 counterexample: for the chain `A → B → C` and candidates
`{"A", "C"}`, the filter does not return `{"C"}` — it performs a single
parent lookup, not a walk of the ancestor chain, so the non-direct ancestor
`"A"` survives. -/
theorem C1_counterexample :
    aplicar_logica_hierarquia ["A", "C"] [("A", ["B"]), ("B", ["C"])] ≠
      ({"C"} : Finset String) := by decide

/-- C1 (amended): the filter removes only direct parents of suggested terms.
For the chain `A → B → C` with candidates `{A, C}` and the middle term `B`
not among the candidates, both `A` and `C` are retained: the non-direct
ancestor `A` is not pruned. -/
theorem C1_apenas_pai_direto (A B C : String)
    (hBA : B ≠ A) (hBC : B ≠ C) :
    aplicar_logica_hierarquia [A, C] [(A, [B]), (B, [C])] =
      ({A, C} : Finset String) := by
  have hinv : ∀ x, mapa_inverso_hierarquia [(A, [B]), (B, [C])] x =
      if x = C then some B else if x = B then some A else none := by
    intro x
    rfl
  ext x
  rw [mem_aplicar]
  simp only [List.mem_cons, List.not_mem_nil, or_false, Finset.mem_insert,
    Finset.mem_singleton]
  constructor
  · rintro ⟨hx, -⟩
    exact hx
  · intro hx
    refine ⟨hx, ?_⟩
    rintro ⟨t, ht, hinv_t⟩
    rw [hinv t] at hinv_t
    rcases ht with rfl | rfl
    · by_cases htC : t = C
      · rw [if_pos htC] at hinv_t
        cases Option.some_injective _ hinv_t
        rcases hx with rfl | rfl
        · exact hBA rfl
        · exact hBC rfl
      · rw [if_neg htC] at hinv_t
        by_cases htB : t = B
        · exact hBA htB.symm
        · rw [if_neg htB] at hinv_t
          exact Option.noConfusion hinv_t
    · rw [if_pos rfl] at hinv_t
      cases Option.some_injective _ hinv_t
      rcases hx with rfl | rfl
      · exact hBA rfl
      · exact hBC rfl

/-- C1 witness: the amended theorem applied at the concrete chain
`"A" → "B" → "C"`. -/
theorem C1_witness :
    aplicar_logica_hierarquia ["A", "C"] [("A", ["B"]), ("B", ["C"])] =
      ({"A", "C"} : Finset String) :=
  C1_apenas_pai_direto "A" "B" "C" (by decide) (by decide)

/-- C2 counterexample: with the dictionary loaded from the line
`"Transporte > Transporte Ferroviário"`, the raw candidate `"Lorem Ipsum"`
matches no loaded term case-insensitively, yet it appears in the final term
set: the code performs no vocabulary validation. -/
theorem C2_counterexample :
    "Lorem Ipsum" ∈
        montaTermosFinais ["Lorem Ipsum"] false
          (carregar_dicionario_termos
            (some ["Transporte > Transporte Ferroviário"])).mapa ∧
      ∀ t ∈ (carregar_dicionario_termos
          (some ["Transporte > Transporte Ferroviário"])).termos,
        pyLower t ≠ pyLower "Lorem Ipsum" := by decide

/-- C2 (amended): no vocabulary validation takes place.  Every parsed raw
candidate reaches the final term set in its raw casing — regardless of any
controlled vocabulary — unless it is the recorded direct parent of one of
the candidates. -/
theorem C2_sem_validacao (brutos : List String)
    (mapa : List (String × List String)) (c : String)
    (hc : c ∈ brutos)
    (hnp : ∀ t ∈ brutos, mapa_inverso_hierarquia mapa t ≠ some c) :
    c ∈ montaTermosFinais brutos false mapa := by
  unfold montaTermosFinais
  rw [if_neg (by simp)]
  rw [mem_aplicar]
  exact ⟨hc, fun he => by
    obtain ⟨t, ht, hinv⟩ := he
    exact hnp t ht hinv⟩

/-- C2 witness: the amended theorem applied to the single out-of-vocabulary
candidate `"Lorem Ipsum"` and an empty hierarchy. -/
theorem C2_witness :
    "Lorem Ipsum" ∈ montaTermosFinais ["Lorem Ipsum"] false [] :=
  C2_sem_validacao ["Lorem Ipsum"] [] "Lorem Ipsum" (by decide)
    (fun t _ => by
      have h : mapa_inverso_hierarquia [] t = none := rfl
      rw [h]
      exact fun hx => Option.noConfusion hx)

/-- C4 counterexample: on the cyclic edge set `A → B`, `B → A` with
candidates `{"A", "B"}`, the filter does not return a superset of the
candidate set (and the code has no malformed-hierarchy report): it removes
both terms. -/
theorem C4_counterexample :
    ¬ (["A", "B"] : List String).toFinset ⊆
      aplicar_logica_hierarquia ["A", "B"] [("A", ["B"]), ("B", ["A"])] := by
  decide

/-- C4 (amended): the filter always terminates — it performs one inverse
lookup per candidate rather than an ancestor walk — but on the cyclic edge
set `A → B`, `B → A` with candidates `{"A", "B"}` each term is the direct
parent of the other, so both are removed and the empty set is returned; no
malformed-hierarchy condition is reported. -/
theorem C4_ciclo_remove_ambos :
    aplicar_logica_hierarquia ["A", "B"] [("A", ["B"]), ("B", ["A"])] =
      ∅ := by decide

/-- C5 (confirmed): the filter is idempotent.  Feeding any list `L`
enumerating the filter's output (Python returns the set as a list in
unspecified order) back into the filter returns the same set. -/
theorem C5_idempotente (mapa : List (String × List String))
    (S L : List String)
    (h : L.toFinset = aplicar_logica_hierarquia S mapa) :
    aplicar_logica_hierarquia L mapa = aplicar_logica_hierarquia S mapa := by
  ext x
  constructor
  · intro hx
    rw [mem_aplicar] at hx
    rw [← h, List.mem_toFinset]
    exact hx.1
  · intro hx
    rw [mem_aplicar]
    refine ⟨by rw [← List.mem_toFinset, h]; exact hx, ?_⟩
    rintro ⟨t, htL, hinv⟩
    have htF : t ∈ aplicar_logica_hierarquia S mapa := by
      rw [← h, List.mem_toFinset]
      exact htL
    have htS := (mem_aplicar.mp htF).1
    have hxno : x ∉ aplicar_logica_hierarquia S mapa := by
      rw [mem_aplicar]
      rintro ⟨-, hno⟩
      exact hno ⟨t, htS, hinv⟩
    exact hxno hx

/-- C5 witness: idempotence at the concrete single-edge hierarchy, re-feeding
the filtered output `["Transporte Ferroviário"]`. -/
theorem C5_witness :
    aplicar_logica_hierarquia ["Transporte Ferroviário"]
        [("Transporte", ["Transporte Ferroviário"])] =
      aplicar_logica_hierarquia ["Transporte", "Transporte Ferroviário"]
        [("Transporte", ["Transporte Ferroviário"])] :=
  C5_idempotente [("Transporte", ["Transporte Ferroviário"])]
    ["Transporte", "Transporte Ferroviário"] ["Transporte Ferroviário"]
    (by decide)

/-- C6 counterexample: for the source line `"A > B"` the loader records the
edge `("A", ["B"])` but does not add the parent endpoint `"A"` to the term
list. -/
theorem C6_counterexample :
    ("A", ["B"]) ∈ (carregar_dicionario_termos (some ["A > B"])).mapa ∧
      "A" ∉ (carregar_dicionario_termos (some ["A > B"])).termos := by
  decide

/-- C6 (amended): the loader adds only the most-specific (last) level of each
line to the term list; the parent endpoint of an edge is recorded in the
hierarchy map but enters the term list only if it occurs as the
most-specific level of some other line.  For the source `["A > B"]` the
result is exactly terms `["B"]` with map `[("A", ["B"])]`. -/
theorem C6_so_nivel_especifico :
    carregar_dicionario_termos (some ["A > B"]) =
      ⟨["B"], [("A", ["B"])], false⟩ := by decide

/-- C7 counterexample: for a source repeating the line `"A > B"` twice, the
loaded term list contains `"B"` twice and the children recorded under `"A"`
contain `"B"` twice — the no-duplicates guarantee fails. -/
theorem C7_counterexample :
    ¬ ((carregar_dicionario_termos (some ["A > B", "A > B"])).termos.Nodup ∧
        ∀ e ∈ (carregar_dicionario_termos (some ["A > B", "A > B"])).mapa,
          e.2.Nodup) := by decide

/-- C7 (amended): the loader appends one term entry and one child entry per
parsed line, preserving duplicates: the duplicated source line `"A > B"`
yields the term list `["B", "B"]` and children `["B", "B"]` under `"A"`. -/
theorem C7_duplicatas_preservadas :
    carregar_dicionario_termos (some ["A > B", "A > B"]) =
      ⟨["B", "B"], [("A", ["B", "B"])], false⟩ := by decide

/-- C9 counterexample: with the self-loop edge `"A" → "A"` and the single
candidate `"A"`, no candidate is an ancestor of any *other* candidate, yet
the filter removes `"A"` (it is its own recorded parent) instead of
retaining it. -/
theorem C9_counterexample :
    (∀ a ∈ (["A"] : List String), ∀ b ∈ (["A"] : List String),
        a ≠ b → ¬ Ancestor (mapa_inverso_hierarquia [("A", ["A"])]) a b) ∧
      aplicar_logica_hierarquia ["A"] [("A", ["A"])] ≠
        (["A"] : List String).toFinset := by
  constructor
  · intro a ha b hb hne
    simp only [List.mem_singleton] at ha hb
    subst ha; subst hb
    exact absurd rfl hne
  · decide

/-- C9 (amended): if no candidate is a hierarchy ancestor of any candidate
in the set — itself included, which rules out self-loop edges — then the
filter retains every candidate unchanged, whatever the order of the input
list. -/
theorem C9_sem_relacao_preserva (mapa : List (String × List String))
    (S : List String)
    (h : ∀ a ∈ S, ∀ b ∈ S, ¬ Ancestor (mapa_inverso_hierarquia mapa) a b) :
    aplicar_logica_hierarquia S mapa = S.toFinset := by
  ext x
  rw [mem_aplicar, List.mem_toFinset]
  constructor
  · exact fun hx => hx.1
  · intro hx
    refine ⟨hx, ?_⟩
    rintro ⟨t, ht, hinv⟩
    exact h x hx t ht (Ancestor.direct hinv)

/-- C9 witness: the amended theorem applied to candidates `["P", "Q"]` and
the unrelated hierarchy edge `"X" → "Y"`. -/
theorem C9_witness :
    aplicar_logica_hierarquia ["P", "Q"] [("X", ["Y"])] =
      (["P", "Q"] : List String).toFinset := by
  apply C9_sem_relacao_preserva
  intro a ha b hb hanc
  obtain ⟨p, hp⟩ := hanc.inv_isSome
  simp only [List.mem_cons, List.not_mem_nil, or_false] at hb
  rcases hb with rfl | rfl
  · have h0 : mapa_inverso_hierarquia [("X", ["Y"])] "P" = none := by decide
    rw [h0] at hp
    exact Option.noConfusion hp
  · have h0 : mapa_inverso_hierarquia [("X", ["Y"])] "Q" = none := by decide
    rw [h0] at hp
    exact Option.noConfusion hp

/-- C10 (confirmed): the filter's result holds each term at most once (it is
the Python set `termos_finais`) and is a subset of the suggested terms: the
filter never introduces a term that was not suggested. -/
theorem C10_subconjunto_sem_duplicatas (mapa : List (String × List String))
    (S : List String) :
    (aplicar_logica_hierarquia S mapa).val.Nodup ∧
      ∀ t ∈ aplicar_logica_hierarquia S mapa, t ∈ S :=
  ⟨(aplicar_logica_hierarquia S mapa).nodup,
    fun _ ht => (mem_aplicar.mp ht).1⟩

/-- C10 witness: the theorem applied to the duplicated input `["A", "A"]`
with an empty hierarchy. -/
theorem C10_witness :
    (aplicar_logica_hierarquia ["A", "A"] []).val.Nodup ∧
      "A" ∈ (["A", "A"] : List String) :=
  ⟨(C10_subconjunto_sem_duplicatas [] ["A", "A"]).1,
    (C10_subconjunto_sem_duplicatas [] ["A", "A"]).2 "A" (by decide)⟩

